import Mathlib

/-!
Verification development for the `bread` browser extension's highlight engine
(`src/entrypoints/content/highlight/highlightNodeV3.ts` and its related
highlight-feature files).

Shallow embedding conventions:
* A JS string is a `List Char`; `String.prototype.toLowerCase` is the
  character-wise `Char.toLower`, `trim` strips whitespace at both ends.
* The relevant slice of the DOM is a flat list of sibling nodes under one
  parent: a plain text node (`DomNode.text`) or a highlight marker span
  wrapping one run of text (`DomNode.span`).  The marker's `textContent`
  is the wrapped run.
* Node references (the identity used by `texts.find(t => t.node === node)`
  and by `Range.startContainer`) are modelled by the node's position in the
  tree at collection time (`TextNodeEntry.idx`).
* `Text.splitText` keeps both halves in the tree as siblings; this is
  modelled explicitly below (`applyMatchesRev`).
* `console.*` logging is side-effect free for the tree and is dropped.
-/

namespace Bread

/-- A DOM node in the flat content model: a plain text leaf, or a highlight
marker (`<span class="highlight">`) wrapping one run of text. -/
inductive DomNode where
  | text (s : List Char)
  | span (s : List Char)
deriving DecidableEq, Repr

/-- `textContent` of a node. -/
def nodeText : DomNode → List Char
  | .text s => s
  | .span s => s

/-- Concatenated `textContent` of a node sequence. -/
def treeText (ns : List DomNode) : List Char :=
  (ns.map nodeText).flatten

/-- Is this node a highlight marker? -/
def isSpanNode : DomNode → Bool
  | .text _ => false
  | .span _ => true

/-- Number of highlight markers in the tree
(`document.querySelectorAll(".highlight").length`). -/
def countSpans (ns : List DomNode) : Nat :=
  (ns.filter isSpanNode).length

/-- Is this node a plain text leaf? -/
def isTextNode : DomNode → Bool
  | .text _ => true
  | .span _ => false

/-- JS `String.prototype.trim`: drop whitespace from both ends. -/
def jsTrim (s : List Char) : List Char :=
  ((s.dropWhile Char.isWhitespace).reverse.dropWhile Char.isWhitespace).reverse

/-- JS `String.prototype.toLowerCase`, modelled character-wise. -/
def toLowerStr (s : List Char) : List Char :=
  s.map Char.toLower

/-- One collected text node: `{ node, start, end }` from `getTextNodes`.
`idx` is the node's position in the tree (its reference identity),
`content` its text at collection time; `end` is a Lean keyword and is
renamed `stop`. -/
structure TextNodeEntry where
  idx : Nat
  content : List Char
  start : Nat
  stop : Nat
deriving DecidableEq, Repr

/-- Walker loop of `getTextNodes`: visit the leaves in document order,
`FILTER_SKIP` a leaf whose trimmed content is shorter than the default
`minContentLength = 1` (skipped leaves advance neither `offset` nor the
collected list), otherwise record `{node, start: offset, end: offset+len}`
and advance `offset` by the full (untrimmed) length.  The tag/visibility
filter is the external node-filter policy: `leaves` are the text leaves
that policy did not reject, in document order. -/
def getTextNodesAux : List (List Char) → Nat → Nat → List TextNodeEntry
  | [], _, _ => []
  | l :: ls, idx, offset =>
    if (jsTrim l).length < 1 then
      getTextNodesAux ls (idx + 1) offset
    else
      ⟨idx, l, offset, offset + l.length⟩ :: getTextNodesAux ls (idx + 1) (offset + l.length)

/-- `getTextNodes`: the collected entries plus `mergedText`, the
concatenation of the collected nodes' lower-cased contents. -/
def getTextNodes (leaves : List (List Char)) : List TextNodeEntry × List Char :=
  let texts := getTextNodesAux leaves 0 0
  (texts, (texts.map (fun e => toLowerStr e.content)).flatten)

/-- `MatchRange` (`end` renamed `stop`). -/
structure MatchRange where
  start : Nat
  stop : Nat
deriving DecidableEq, Repr

/-- Does `q` occur in `s` at position `i`? -/
def occursAt (s q : List Char) (i : Nat) : Bool :=
  q.isPrefixOf (s.drop i)

/-- JS `mergedText.indexOf(selectedText, i)`: least `j ≥ i` at which `q`
occurs, else `none` (the source's `-1`).  `fuel` bounds the scan; callers
pass `s.length + 1 - i` so every candidate start up to `s.length` is
tried. -/
def indexOfFrom (s q : List Char) : Nat → Nat → Option Nat
  | _, 0 => none
  | i, fuel + 1 =>
    if occursAt s q i then some i else indexOfFrom s q (i + 1) fuel

/-- The `while ((index = mergedText.indexOf(selectedText, index)) !== -1)`
loop of `findMatches`: record `{start: j, end: j + q.length}` and resume at
`j + q.length`.  `fuel` bounds the loop; since each iteration advances the
cursor by `q.length ≥ 1` and a hit needs `j + q.length ≤ s.length`, the
initial fuel `s.length + 1` is never exhausted before `indexOfFrom`
returns `none`. -/
def findMatchesAux (s q : List Char) : Nat → Nat → List MatchRange
  | _, 0 => []
  | i, fuel + 1 =>
    match indexOfFrom s q i (s.length + 1 - i) with
    | none => []
    | some j => ⟨j, j + q.length⟩ :: findMatchesAux s q (j + q.length) fuel

/-- `findMatches(mergedText, selectedText)`: empty query is guarded to an
empty result, otherwise the scan loop runs. -/
def findMatches (s q : List Char) : List MatchRange :=
  if q.length = 0 then [] else findMatchesAux s q 0 (s.length + 1)

/-- The first `Range` of the live selection:
`{startContainer, startOffset, endContainer, endOffset}`, containers given
by node identity (tree position). -/
structure SelRange where
  startContainer : Nat
  startOffset : Nat
  endContainer : Nat
  endOffset : Nat
deriving DecidableEq, Repr

/-- `findGlobalOffset` inside `isInSelection`: look the container node up
among the collected entries and add the in-node offset.  The source
returns `-1` when the node is absent; since a present node always yields a
non-negative offset, the `-1` sentinel is modelled as `none`. -/
def findGlobalOffset (texts : List TextNodeEntry) (node off : Nat) : Option Nat :=
  (texts.find? (fun t => t.idx == node)).map (fun e => e.start + off)

/-- `isInSelection(match, texts, selection)`: `false` for a null/empty
selection or an unmappable endpoint; otherwise full containment or strict
partial overlap of the match with the selection's logical range. -/
def isInSelection (m : MatchRange) (texts : List TextNodeEntry) (sel : Option SelRange) : Bool :=
  match sel with
  | none => false
  | some r =>
    match findGlobalOffset texts r.startContainer r.startOffset,
          findGlobalOffset texts r.endContainer r.endOffset with
    | some selStart, some selEnd =>
      decide ((selStart ≤ m.start ∧ m.stop ≤ selEnd) ∨ (m.start < selEnd ∧ selStart < m.stop))
    | _, _ => false

/-- The `while (currentMatchIndex < sortedMatches.length)` collection loop
of `highlightMatches` for one entry: a match fully inside
`[entry.start, entry.end]` is clamped to local coordinates and consumed; a
partially overlapping match contributes its clamped local part and stays
at the head of the remainder (`break` without `currentMatchIndex++`), to
be carried to the following segments; any other match stops the loop.
`Math.max(0, x - y)` over JS numbers is exactly truncated `Nat`
subtraction. -/
def collectNodeMatches :
    List MatchRange → Nat → Nat → Nat → List MatchRange × List MatchRange
  | [], _, _, _ => ([], [])
  | m :: rest, segStart, segStop, contentLen =>
    if segStart ≤ m.start ∧ m.stop ≤ segStop then
      let r := collectNodeMatches rest segStart segStop contentLen
      (⟨m.start - segStart, min contentLen (m.stop - segStart)⟩ :: r.1, r.2)
    else if m.start < segStop ∧ segStart < m.stop then
      ([⟨m.start - segStart, min contentLen (m.stop - segStart)⟩], m :: rest)
    else
      ([], m :: rest)

/-- Stable insertion step for `sortByStart`. -/
def insertByStart (m : MatchRange) : List MatchRange → List MatchRange
  | [] => [m]
  | x :: xs => if m.start ≤ x.start then m :: x :: xs else x :: insertByStart m xs

/-- `[...matches].sort((a, b) => a.start - b.start)`: stable sort by
`start`, modelled as insertion sort. -/
def sortByStart : List MatchRange → List MatchRange
  | [] => []
  | x :: xs => insertByStart x (sortByStart xs)

/-- `texts.forEach` threading of `currentMatchIndex`: for each entry, in
order, the local matches collected for that entry's node, pairing the
node's identity with them; the unconsumed remainder flows to the next
entry. -/
def nodeMatchesPlan : List TextNodeEntry → List MatchRange → List (Nat × List MatchRange)
  | [], _ => []
  | e :: es, ms =>
    let r := collectNodeMatches ms e.start e.stop e.content.length
    (e.idx, r.1) :: nodeMatchesPlan es r.2

/-- The `nodeMatches.reverse().forEach` splice loop on one leaf.  One
iteration on the current node with content `c` and local match `{a, b}`:
`pre = node.splitText(a)` (node keeps `c[0,a)`, `pre = c[a,..)` inserted
after it), `highlighted = pre.splitText(b - a)` (`pre` keeps `c[a,b)`,
`highlighted = c[b,..)` inserted after `pre`), the span wraps a clone of
`pre` and replaces it.  `highlighted` was inserted into the tree by
`splitText` and stays right after the span whether or not the
`if (highlighted.textContent) span.after(highlighted)` move runs, so it is
always emitted.  Returns the final content of the original node and the
accumulated nodes inserted after it. -/
def applyMatchesRev : List Char → List MatchRange → List DomNode → List Char × List DomNode
  | s, [], acc => (s, acc)
  | s, m :: rest, acc =>
    let pre := s.drop m.start
    let wrapped := pre.take (m.stop - m.start)
    let highlighted := pre.drop (m.stop - m.start)
    applyMatchesRev (s.take m.start) rest (DomNode.span wrapped :: DomNode.text highlighted :: acc)

/-- Result of splicing one leaf with its (ascending, local) match list:
the leaf node's final residue followed by the inserted span/text pairs. -/
def spliceLeaf (s : List Char) (ms : List MatchRange) : List DomNode :=
  let r := applyMatchesRev s ms.reverse []
  DomNode.text r.1 :: r.2

/-- The `if (nodeMatches.length > 0)` guard: a leaf with no local matches
is left untouched. -/
def spliceLeafOrSkip (s : List Char) (ms : List MatchRange) : List DomNode :=
  if ms.isEmpty then [DomNode.text s] else spliceLeaf s ms

/-- Tree-level effect of `highlightMatches`: each tree position whose node
was collected (it appears in the plan) is replaced in place by its spliced
node sequence; uncollected nodes are untouched. -/
def spliceTreeNodes (plan : List (Nat × List MatchRange)) : Nat → List DomNode → List DomNode
  | _, [] => []
  | i, n :: ns =>
    (match plan.find? (fun q => q.fst == i) with
     | some q =>
       match n with
       | DomNode.text s => spliceLeafOrSkip s q.snd
       | DomNode.span s => [DomNode.span s]
     | none => [n]) ++ spliceTreeNodes plan (i + 1) ns

/-- Per-leaf view of one whole `highlightMatches(texts, matches)` pass over
content held in the given leaves: sort the matches, thread them through
the collected entries, and splice each leaf (a leaf skipped by the
collector has no entry and stays untouched). -/
def spliceLeaves (plan : List (Nat × List MatchRange)) : Nat → List (List Char) → List (List DomNode)
  | _, [] => []
  | i, l :: ls =>
    (match plan.find? (fun q => q.fst == i) with
     | some q => spliceLeafOrSkip l q.snd
     | none => [DomNode.text l]) :: spliceLeaves plan (i + 1) ls

/-- `highlightMatches` applied to the segments collected from `leaves`,
returning the resulting node sequence of every leaf position. -/
def highlightMatchesLeaves (leaves : List (List Char)) (ms : List MatchRange) : List (List DomNode) :=
  spliceLeaves (nodeMatchesPlan (getTextNodes leaves).1 (sortByStart ms)) 0 leaves

/-- `removeHighlights` on one node: a `.highlight` span is replaced by a
text node holding its `textContent`; plain text is untouched.  (The V3
`removeHighlights` does not normalize.) -/
def removeHighlightNode : DomNode → DomNode
  | .text s => .text s
  | .span s => .text s

/-- Controller state of `highlightNodeV3.ts`: the module-level
`lastSelectedText` plus the content tree. -/
structure HLState where
  lastSelectedText : List Char
  tree : List DomNode
deriving DecidableEq, Repr

/-- `highlightNode(root)`: unconditionally clear old markers, read the
selection text (already trimmed and lower-cased by `getSelectedText`), and
when it is non-empty and differs from `lastSelectedText`, store it, collect
the text nodes, find the matches, drop those inside the live selection, and
splice the rest. -/
def highlightNode (st : HLState) (selText : List Char) (sel : Option SelRange) : HLState :=
  let tree1 := st.tree.map removeHighlightNode
  if selText ≠ [] ∧ selText ≠ st.lastSelectedText then
    let collected := getTextNodes (tree1.map nodeText)
    if 0 < collected.1.length ∧ selText ≠ [] then
      let found := findMatches collected.2 selText
      let filtered := found.filter (fun m => !(isInSelection m collected.1 sel))
      { lastSelectedText := selText,
        tree := spliceTreeNodes (nodeMatchesPlan collected.1 (sortByStart filtered)) 0 tree1 }
    else
      { lastSelectedText := selText, tree := tree1 }
  else
    { lastSelectedText := st.lastSelectedText, tree := tree1 }

/-- `Node.normalize()` over a run of siblings: drop empty text nodes and
merge adjacent text nodes. -/
def normalizeTree : List DomNode → List DomNode
  | [] => []
  | DomNode.span s :: rest => DomNode.span s :: normalizeTree rest
  | DomNode.text s :: rest =>
    if s.isEmpty then normalizeTree rest
    else
      match normalizeTree rest with
      | DomNode.text t :: rest2 => DomNode.text (s ++ t) :: rest2
      | other => DomNode.text s :: other

/-- The `/[a-zA-Z0-9]/` character class of the single-character guard. -/
def isAlphanumChar (c : Char) : Bool :=
  decide (('a' ≤ c ∧ c ≤ 'z') ∨ ('A' ≤ c ∧ c ≤ 'Z') ∨ ('0' ≤ c ∧ c ≤ '9'))

/-- The `while ((startIdx = lowerCaseNodeText.indexOf(...)))` loop of
`HighlightFeature.highlightTextInNode`: search the lower-cased node text,
split out `[before, highlighted, after]`, wrap the (original-case) middle
slice in a marker, and continue on the `afterHighlight` node from index
`0`.  The final `afterHighlight` node stays in the tree even when empty.
`fuel` bounds the loop (each hit consumes at least one character). -/
def highlightTextInNode (lq : List Char) : List Char → Nat → List DomNode
  | s, 0 => [DomNode.text s]
  | s, fuel + 1 =>
    match indexOfFrom (toLowerStr s) lq 0 (s.length + 1) with
    | none => [DomNode.text s]
    | some j =>
      DomNode.text (s.take j) ::
        DomNode.span ((s.drop j).take lq.length) ::
        highlightTextInNode lq (s.drop (j + lq.length)) fuel

/-- Modelled from the spec: the text-node collector that
`HighlightFeature.highlightTextNodes` imports from `"./kit/getNodes"` is
not among the sources; per §4.1 it yields the text-bearing leaves accepted
by the filter policy, in document order.  `highlightTextNodes` then
highlights every occurrence of the lower-cased tracked text inside each
collected leaf. -/
def highlightTextNodes (tree : List DomNode) (q : List Char) : List DomNode :=
  (tree.map (fun n =>
    match n with
    | DomNode.text s => highlightTextInNode (toLowerStr q) s s.length
    | DomNode.span s => [DomNode.span s])).flatten

/-- `HighlightFeature` state: `currentHighlight.text` plus the content
tree.  The tracked `currentHighlight.spans` array is represented by the
markers present in the tree, the feature being their only creator. -/
structure FeatState where
  text : List Char
  tree : List DomNode
deriving DecidableEq, Repr

/-- `removeExistingHighlights`: replace every tracked marker by a text
node holding its content, then `normalize` the parent. -/
def removeExistingHighlights (tree : List DomNode) : List DomNode :=
  normalizeTree (tree.map removeHighlightNode)

/-- `HighlightFeature.switchHighlight`: reject a selection that is a
single alphanumeric character; otherwise, when the selection text differs
from the tracked text, clear old markers, store the new text, and
highlight it when non-empty. -/
def switchHighlight (st : FeatState) (selectedText : List Char) : FeatState :=
  if selectedText.length == 1 && selectedText.any isAlphanumChar then st
  else if selectedText ≠ st.text then
    let cleared := removeExistingHighlights st.tree
    if selectedText.isEmpty then { text := selectedText, tree := cleared }
    else { text := selectedText, tree := highlightTextNodes cleared selectedText }
  else st

/-- All ranges in the list are chained: starts at or after `lo`, each
range is `qlen` long, and each subsequent range starts at or after the
previous range's end. -/
def matchesChainedFrom (qlen : Nat) : Nat → List MatchRange → Prop
  | _, [] => True
  | lo, m :: rest => lo ≤ m.start ∧ m.stop = m.start + qlen ∧ matchesChainedFrom qlen m.stop rest

/-- The collected entries are chained from a base offset: the first starts
at the base, each entry's `stop` is `start + content.length`, and each
subsequent entry starts where the previous one stopped. -/
def entriesChainedFrom : Nat → List TextNodeEntry → Prop
  | _, [] => True
  | off, e :: es => e.start = off ∧ e.stop = e.start + e.content.length ∧ entriesChainedFrom e.stop es

/-! ### Generic facts about `treeText` -/

theorem treeText_cons (n : DomNode) (ns : List DomNode) :
    treeText (n :: ns) = nodeText n ++ treeText ns := by
  simp [treeText]

theorem treeText_append (l1 l2 : List DomNode) :
    treeText (l1 ++ l2) = treeText l1 ++ treeText l2 := by
  simp [treeText]

/-! ### The match engine (`findMatches`), claim C3 -/

theorem indexOfFrom_some_spec (s q : List Char) :
    ∀ fuel i j, indexOfFrom s q i fuel = some j → i ≤ j ∧ occursAt s q j = true := by
  intro fuel
  induction fuel with
  | zero => intro i j h; simp [indexOfFrom] at h
  | succ fuel ih =>
    intro i j h
    by_cases ho : occursAt s q i
    · rw [indexOfFrom, if_pos ho, Option.some_inj] at h
      exact h ▸ ⟨Nat.le_refl i, ho⟩
    · rw [indexOfFrom, if_neg ho] at h
      have := ih (i + 1) j h
      exact ⟨Nat.le_of_succ_le this.1, this.2⟩

theorem findMatchesAux_chained (s q : List Char) :
    ∀ fuel i, matchesChainedFrom q.length i (findMatchesAux s q i fuel) := by
  intro fuel
  induction fuel with
  | zero => intro i; simp [findMatchesAux, matchesChainedFrom]
  | succ fuel ih =>
    intro i
    simp only [findMatchesAux]
    cases h : indexOfFrom s q i (s.length + 1 - i) with
    | none => simp [matchesChainedFrom]
    | some j =>
      exact ⟨(indexOfFrom_some_spec s q _ i j h).1, rfl, ih (j + q.length)⟩

theorem findMatchesAux_mem (s q : List Char) :
    ∀ fuel i m, m ∈ findMatchesAux s q i fuel →
      m.stop = m.start + q.length ∧ occursAt s q m.start = true := by
  intro fuel
  induction fuel with
  | zero => intro i m h; simp [findMatchesAux] at h
  | succ fuel ih =>
    intro i m h
    simp only [findMatchesAux] at h
    cases he : indexOfFrom s q i (s.length + 1 - i) with
    | none => rw [he] at h; simp at h
    | some j =>
      rw [he] at h
      rcases List.mem_cons.mp h with h1 | h2
      · subst h1
        exact ⟨rfl, (indexOfFrom_some_spec s q _ i j he).2⟩
      · exact ih _ m h2

theorem chained_le_start (qlen : Nat) :
    ∀ (l : List MatchRange) (lo : Nat), matchesChainedFrom qlen lo l →
      ∀ i (hi : i < l.length), lo ≤ (l.get ⟨i, hi⟩).start := by
  intro l
  induction l with
  | nil => intro lo _ i hi; simp at hi
  | cons m rest ih =>
    intro lo h i hi
    cases i with
    | zero => exact h.1
    | succ i' =>
      have h1 : lo ≤ m.stop := by
        have := h.1
        have := h.2.1
        omega
      have h2 := ih m.stop h.2.2 i' (Nat.lt_of_succ_lt_succ hi)
      exact Nat.le_trans h1 h2

theorem chained_disjoint (qlen : Nat) :
    ∀ (l : List MatchRange) (lo : Nat), matchesChainedFrom qlen lo l →
      ∀ i j (hi : i < l.length) (hj : j < l.length), i < j →
        (l.get ⟨i, hi⟩).stop ≤ (l.get ⟨j, hj⟩).start := by
  intro l
  induction l with
  | nil => intro lo _ i j hi; simp at hi
  | cons m rest ih =>
    intro lo h i j hi hj hij
    cases j with
    | zero => omega
    | succ j' =>
      cases i with
      | zero =>
        exact chained_le_start qlen rest m.stop h.2.2 j' (Nat.lt_of_succ_lt_succ hj)
      | succ i' =>
        exact ih m.stop h.2.2 i' j' (Nat.lt_of_succ_lt_succ hi) (Nat.lt_of_succ_lt_succ hj)
          (Nat.lt_of_succ_lt_succ hij)

/-- Claim C3: for every logical string and every non-empty query,
`findMatches` returns the leftmost-first non-overlapping occurrences: each
recorded range is `{i, i + len(q)}` at an actual occurrence `i`, distinct
ranges never overlap, and in particular `findMatches("aaa", "aa")` is
exactly `[{0, 2}]`. -/
theorem findMatches_nonoverlap_spec (s q : List Char) (hq : q ≠ []) :
    (∀ i j (hi : i < (findMatches s q).length) (hj : j < (findMatches s q).length), i ≠ j →
        ((findMatches s q).get ⟨i, hi⟩).stop ≤ ((findMatches s q).get ⟨j, hj⟩).start ∨
        ((findMatches s q).get ⟨j, hj⟩).stop ≤ ((findMatches s q).get ⟨i, hi⟩).start) ∧
    (∀ m ∈ findMatches s q, m.stop = m.start + q.length ∧ occursAt s q m.start = true) ∧
    findMatches "aaa".toList "aa".toList = [⟨0, 2⟩] := by
  have hlen : ¬ q.length = 0 := fun h => hq (List.length_eq_zero.mp h)
  refine ⟨?_, ?_, by decide⟩
  · intro i j hi hj hne
    have hch : matchesChainedFrom q.length 0 (findMatches s q) := by
      unfold findMatches
      rw [if_neg hlen]
      exact findMatchesAux_chained s q _ 0
    rcases Nat.lt_or_ge i j with hlt | hge
    · exact Or.inl (chained_disjoint _ _ 0 hch i j hi hj hlt)
    · exact Or.inr (chained_disjoint _ _ 0 hch j i hj hi (by omega))
  · intro m hm
    unfold findMatches at hm
    rw [if_neg hlen] at hm
    exact findMatchesAux_mem s q _ 0 m hm

/-- Concrete instantiation of `findMatches_nonoverlap_spec`. -/
theorem findMatches_nonoverlap_spec_witness :
    findMatches "aaa".toList "aa".toList = [⟨0, 2⟩] :=
  (findMatches_nonoverlap_spec "aaa".toList "aa".toList (by decide)).2.2

/-! ### The segment collector (`getTextNodes`), claim C4 -/

theorem getTextNodesAux_chained :
    ∀ (leaves : List (List Char)) (idx offset : Nat),
      entriesChainedFrom offset (getTextNodesAux leaves idx offset) := by
  intro leaves
  induction leaves with
  | nil => intro idx off; simp [getTextNodesAux, entriesChainedFrom]
  | cons l ls ih =>
    intro idx off
    simp only [getTextNodesAux]
    by_cases h : (jsTrim l).length < 1
    · rw [if_pos h]; exact ih (idx + 1) off
    · rw [if_neg h]; exact ⟨rfl, rfl, ih (idx + 1) (off + l.length)⟩

theorem entriesChained_stop :
    ∀ (l : List TextNodeEntry) (off : Nat), entriesChainedFrom off l →
      ∀ i (hi : i < l.length),
        (l.get ⟨i, hi⟩).stop = (l.get ⟨i, hi⟩).start + (l.get ⟨i, hi⟩).content.length := by
  intro l
  induction l with
  | nil => intro off _ i hi; simp at hi
  | cons e es ih =>
    intro off h i hi
    cases i with
    | zero => exact h.2.1
    | succ i' => exact ih e.stop h.2.2 i' (Nat.lt_of_succ_lt_succ hi)

theorem entriesChained_adjacent :
    ∀ (l : List TextNodeEntry) (off : Nat), entriesChainedFrom off l →
      ∀ i (hij : i + 1 < l.length),
        (l.get ⟨i + 1, hij⟩).start = (l.get ⟨i, Nat.lt_of_succ_lt hij⟩).stop := by
  intro l
  induction l with
  | nil => intro off _ i hij; simp at hij
  | cons e es ih =>
    intro off h i hij
    cases i with
    | zero =>
      cases es with
      | nil => simp at hij
      | cons e2 es2 => exact h.2.2.1
    | succ i' => exact ih e.stop h.2.2 i' (Nat.lt_of_succ_lt_succ hij)

theorem entriesChained_head :
    ∀ (l : List TextNodeEntry) (off : Nat), entriesChainedFrom off l →
      ∀ (h : l ≠ []), (l.head h).start = off := by
  intro l
  cases l with
  | nil => intro off _ h; exact absurd rfl h
  | cons e es => intro off hc h; exact hc.1

theorem entriesChained_last :
    ∀ (l : List TextNodeEntry) (off : Nat), entriesChainedFrom off l →
      ∀ (h : l ≠ []),
        (l.getLast h).stop = off + (l.map (fun e => e.content.length)).sum := by
  intro l
  induction l with
  | nil => intro off _ h; exact absurd rfl h
  | cons e es ih =>
    intro off hc h
    cases es with
    | nil =>
      have h1 := hc.1
      have h2 := hc.2.1
      simp only [List.getLast_singleton, List.map_cons, List.map_nil, List.sum_cons,
        List.sum_nil]
      omega
    | cons e2 es2 =>
      have h1 := hc.1
      have h2 := hc.2.1
      rw [List.getLast_cons (List.cons_ne_nil e2 es2), ih e.stop hc.2.2 (List.cons_ne_nil e2 es2)]
      simp only [List.map_cons, List.sum_cons]
      omega

/-- Claim C4: the segments returned by `getTextNodes` and the merged
logical string satisfy the partition invariant — the merged length is the
sum of the segments' content lengths, each segment's range is
`[start, start + content.length)`, consecutive ranges are adjacent, the
first segment starts at `0` and the last stops at the merged length (so
the ranges tile `[0, mergedText.length)` with no gaps or overlaps), and
the logical string is the case-folded concatenation of the segments'
contents. -/
theorem getTextNodes_partition (leaves : List (List Char)) :
    (getTextNodes leaves).2.length = (((getTextNodes leaves).1).map (fun e => e.content.length)).sum ∧
    (∀ i (hi : i < (getTextNodes leaves).1.length),
        ((getTextNodes leaves).1.get ⟨i, hi⟩).stop =
          ((getTextNodes leaves).1.get ⟨i, hi⟩).start +
            ((getTextNodes leaves).1.get ⟨i, hi⟩).content.length) ∧
    (∀ i (hij : i + 1 < (getTextNodes leaves).1.length),
        ((getTextNodes leaves).1.get ⟨i + 1, hij⟩).start =
          ((getTextNodes leaves).1.get ⟨i, Nat.lt_of_succ_lt hij⟩).stop) ∧
    (∀ h : (getTextNodes leaves).1 ≠ [], ((getTextNodes leaves).1.head h).start = 0) ∧
    (∀ h : (getTextNodes leaves).1 ≠ [],
        ((getTextNodes leaves).1.getLast h).stop = (getTextNodes leaves).2.length) ∧
    (getTextNodes leaves).2 = (((getTextNodes leaves).1).map (fun e => toLowerStr e.content)).flatten := by
  have hch : entriesChainedFrom 0 (getTextNodes leaves).1 :=
    getTextNodesAux_chained leaves 0 0
  have hmerged : (getTextNodes leaves).2.length =
      (((getTextNodes leaves).1).map (fun e => e.content.length)).sum := by
    simp [getTextNodes, toLowerStr, Function.comp_def]
  refine ⟨hmerged, ?_, ?_, ?_, ?_, rfl⟩
  · exact entriesChained_stop _ 0 hch
  · exact entriesChained_adjacent _ 0 hch
  · exact entriesChained_head _ 0 hch
  · intro h
    rw [entriesChained_last _ 0 hch h, hmerged, Nat.zero_add]

/-- Concrete instantiation of `getTextNodes_partition` on leaves
`"a"`, `" "` (skipped by the length filter), `"bc"`. -/
theorem getTextNodes_partition_witness :
    ((getTextNodes [['a'], [' '], ['b', 'c']]).1.get ⟨1, by decide⟩).start =
      ((getTextNodes [['a'], [' '], ['b', 'c']]).1.get ⟨0, by decide⟩).stop ∧
    (getTextNodes [['a'], [' '], ['b', 'c']]).2.length =
      (((getTextNodes [['a'], [' '], ['b', 'c']]).1).map (fun e => e.content.length)).sum :=
  ⟨(getTextNodes_partition [['a'], [' '], ['b', 'c']]).2.2.1 0 (by decide),
    (getTextNodes_partition [['a'], [' '], ['b', 'c']]).1⟩

/-! ### The splice engine: text preservation and round-trip, claims C7, C2, C8 -/

theorem applyMatchesRev_text (ms : List MatchRange) :
    ∀ (s : List Char) (acc : List DomNode),
      (applyMatchesRev s ms acc).1 ++ treeText (applyMatchesRev s ms acc).2 =
        s ++ treeText acc := by
  induction ms with
  | nil => intro s acc; rfl
  | cons m rest ih =>
    intro s acc
    simp only [applyMatchesRev]
    rw [ih]
    rw [treeText_cons, treeText_cons]
    simp only [nodeText]
    rw [← List.append_assoc, ← List.append_assoc]
    rw [List.append_assoc (s.take m.start), List.take_append_drop, List.take_append_drop]

theorem spliceLeaf_text (s : List Char) (ms : List MatchRange) :
    treeText (spliceLeaf s ms) = s := by
  rw [spliceLeaf, treeText_cons]
  simp only [nodeText]
  have := applyMatchesRev_text ms.reverse s []
  simpa [treeText] using this

theorem spliceLeafOrSkip_text (s : List Char) (ms : List MatchRange) :
    treeText (spliceLeafOrSkip s ms) = s := by
  rw [spliceLeafOrSkip]
  by_cases h : ms.isEmpty
  · rw [if_pos h]; simp [treeText, nodeText]
  · rw [if_neg h]; exact spliceLeaf_text s ms

theorem nodeText_removeHighlightNode (n : DomNode) :
    nodeText (removeHighlightNode n) = nodeText n := by
  cases n <;> rfl

theorem isTextNode_removeHighlightNode (n : DomNode) :
    isTextNode (removeHighlightNode n) = true := by
  cases n <;> rfl

theorem treeText_map_removeHighlightNode (t : List DomNode) :
    treeText (t.map removeHighlightNode) = treeText t := by
  induction t with
  | nil => rfl
  | cons n ns ih =>
    rw [List.map_cons, treeText_cons, treeText_cons, nodeText_removeHighlightNode, ih]

/-- `normalize` collapses any all-text sibling run to the single text node
holding its concatenated content (or to nothing when that is empty). -/
theorem normalizeTree_allText :
    ∀ (t : List DomNode), (∀ n ∈ t, isTextNode n = true) →
      normalizeTree t = if (treeText t).isEmpty then [] else [DomNode.text (treeText t)] := by
  intro t
  induction t with
  | nil => intro _; rfl
  | cons n ns ih =>
    intro h
    cases n with
    | span s =>
      have := h (DomNode.span s) (List.mem_cons_self _ _)
      simp [isTextNode] at this
    | text s =>
      have hns := ih (fun n hn => h n (List.mem_cons_of_mem _ hn))
      rw [treeText_cons]
      simp only [nodeText]
      by_cases hs : s.isEmpty
      · have hse : s = [] := List.isEmpty_iff.mp hs
        subst hse
        simp only [normalizeTree, List.isEmpty_nil, if_pos rfl, List.nil_append]
        exact hns
      · have hsne : s ≠ [] := fun he => hs (he ▸ List.isEmpty_nil)
        simp only [normalizeTree, hs, if_neg, Bool.false_eq_true, if_false]
        rw [hns]
        by_cases ht : (treeText ns).isEmpty
        · have hte : treeText ns = [] := List.isEmpty_iff.mp ht
          rw [if_pos ht, hte, List.append_nil]
          simp [List.isEmpty_iff, hsne]
        · rw [if_neg ht]
          have : (s ++ treeText ns).isEmpty = false := by
            simp [List.isEmpty_iff, hsne]
          rw [this]
          simp

theorem spliceLeaves_length (plan : List (Nat × List MatchRange)) :
    ∀ (ls : List (List Char)) (i0 : Nat), (spliceLeaves plan i0 ls).length = ls.length := by
  intro ls
  induction ls with
  | nil => intro i0; rfl
  | cons l ls ih =>
    intro i0
    simp only [spliceLeaves, List.length_cons]
    rw [ih (i0 + 1)]

theorem spliceLeaves_get (plan : List (Nat × List MatchRange)) :
    ∀ (ls : List (List Char)) (i0 i : Nat) (hi : i < ls.length)
      (hi2 : i < (spliceLeaves plan i0 ls).length),
      ∃ lms, (spliceLeaves plan i0 ls).get ⟨i, hi2⟩ = spliceLeafOrSkip (ls.get ⟨i, hi⟩) lms := by
  intro ls
  induction ls with
  | nil => intro i0 i hi; simp at hi
  | cons l ls ih =>
    intro i0 i hi hi2
    cases i with
    | zero =>
      cases hf : plan.find? (fun q => q.fst == i0) with
      | some q =>
        refine ⟨q.snd, ?_⟩
        simp only [spliceLeaves, hf, List.get]
      | none =>
        refine ⟨[], ?_⟩
        simp only [spliceLeaves, hf, List.get, spliceLeafOrSkip, List.isEmpty_nil, if_pos]
    | succ i' =>
      have := ih (i0 + 1) i' (Nat.lt_of_succ_lt_succ hi)
        (by rw [spliceLeaves_length plan ls (i0 + 1)]; exact Nat.lt_of_succ_lt_succ hi)
      simpa only [spliceLeaves, List.get] using this

theorem spliceLeaves_flatten_text (plan : List (Nat × List MatchRange)) :
    ∀ (ls : List (List Char)) (i0 : Nat),
      treeText ((spliceLeaves plan i0 ls).flatten) = ls.flatten := by
  intro ls
  induction ls with
  | nil => intro i0; rfl
  | cons l ls ih =>
    intro i0
    simp only [spliceLeaves, List.flatten_cons]
    rw [treeText_append, ih (i0 + 1)]
    cases hf : plan.find? (fun q => q.fst == i0) with
    | some q => rw [spliceLeafOrSkip_text]
    | none => simp [treeText, nodeText]

/-- Claim C7: reversing all markers produced by one `highlightMatches`
pass restores content textually identical to the pre-pass state — the
spliced node sequence of every leaf still spells the original leaf's text,
after marker removal and normalization each leaf position collapses back
to (the normalization of) its original single text leaf, and the
concatenated text of the whole tree is unchanged. -/
theorem highlightMatches_roundTrip (leaves : List (List Char)) (ms : List MatchRange) :
    (highlightMatchesLeaves leaves ms).length = leaves.length ∧
    (∀ i (hi : i < leaves.length) (hi2 : i < (highlightMatchesLeaves leaves ms).length),
        treeText ((highlightMatchesLeaves leaves ms).get ⟨i, hi2⟩) = leaves.get ⟨i, hi⟩ ∧
        normalizeTree
            (((highlightMatchesLeaves leaves ms).get ⟨i, hi2⟩).map removeHighlightNode) =
          normalizeTree [DomNode.text (leaves.get ⟨i, hi⟩)]) ∧
    treeText (highlightMatchesLeaves leaves ms).flatten = leaves.flatten := by
  refine ⟨spliceLeaves_length _ leaves 0, ?_, spliceLeaves_flatten_text _ leaves 0⟩
  intro i hi hi2
  obtain ⟨lms, hg⟩ := spliceLeaves_get _ leaves 0 i hi hi2
  simp only [highlightMatchesLeaves]
  rw [hg]
  constructor
  · exact spliceLeafOrSkip_text _ lms
  · have hall : ∀ n ∈ (spliceLeafOrSkip (leaves.get ⟨i, hi⟩) lms).map removeHighlightNode,
        isTextNode n = true := by
      intro n hn
      obtain ⟨n0, _, hn0⟩ := List.mem_map.mp hn
      exact hn0 ▸ isTextNode_removeHighlightNode n0
    rw [normalizeTree_allText _ hall, treeText_map_removeHighlightNode, spliceLeafOrSkip_text]
    have hall2 : ∀ n ∈ [DomNode.text (leaves.get ⟨i, hi⟩)], isTextNode n = true := by
      intro n hn
      rw [List.mem_singleton.mp hn]; rfl
    rw [normalizeTree_allText _ hall2]
    simp [treeText, nodeText]

/-- Concrete instantiation of `highlightMatches_roundTrip` on the single
leaf `"ab"` spliced with the match `[0, 1)`. -/
theorem highlightMatches_roundTrip_witness :
    treeText ((highlightMatchesLeaves [['a', 'b']] [⟨0, 1⟩]).get ⟨0, by decide⟩) = ['a', 'b'] ∧
    normalizeTree
        (((highlightMatchesLeaves [['a', 'b']] [⟨0, 1⟩]).get ⟨0, by decide⟩).map
          removeHighlightNode) =
      normalizeTree [DomNode.text ['a', 'b']] :=
  (highlightMatches_roundTrip [['a', 'b']] [⟨0, 1⟩]).2.1 0 (by decide) (by decide)

/-- Counterexample to claim C2 as stated: for leaves `"ab"`, `"cd"`,
`"ef"` and the single match `[1, 5)` (query `"bcde"`), the splice engine
creates three markers — one per overlapped leaf — not exactly one marker
wrapping `"bcde"`. -/
theorem highlightMatches_crossBoundary_three_markers :
    countSpans ((highlightMatchesLeaves [['a', 'b'], ['c', 'd'], ['e', 'f']] [⟨1, 5⟩]).flatten) = 3 ∧
    ¬ countSpans ((highlightMatchesLeaves [['a', 'b'], ['c', 'd'], ['e', 'f']] [⟨1, 5⟩]).flatten)
        = 1 := by
  decide

/-- Claim C2 amended: for leaves `"ab"`, `"cd"`, `"ef"` and the single
match `[1, 5)`, the splice engine produces one marker per overlapped leaf
— wrapping `"b"`, `"cd"` and `"e"`, whose concatenation is `"bcde"` — with
the remainder plain-text leaves `"a"` and `"f"` preserved on either side
(plus empty text leaves at the split boundaries); and in general a match
that spans past the current segment's boundary is applied incrementally:
its clamped in-segment portion is recorded for the current segment and the
match itself is carried, unconsumed, to the following segments of the same
pass. -/
theorem highlightMatches_crossBoundary_spec :
    highlightMatchesLeaves [['a', 'b'], ['c', 'd'], ['e', 'f']] [⟨1, 5⟩] =
      [[DomNode.text ['a'], DomNode.span ['b'], DomNode.text []],
       [DomNode.text [], DomNode.span ['c', 'd'], DomNode.text []],
       [DomNode.text [], DomNode.span ['e'], DomNode.text ['f']]] ∧
    (∀ (m : MatchRange) (rest : List MatchRange) (segStart segStop contentLen : Nat),
        m.start < segStop → segStart < m.stop → segStop < m.stop →
        collectNodeMatches (m :: rest) segStart segStop contentLen =
          ([⟨m.start - segStart, min contentLen (m.stop - segStart)⟩], m :: rest)) := by
  refine ⟨by decide, ?_⟩
  intro m rest segStart segStop contentLen h1 h2 h3
  simp only [collectNodeMatches]
  rw [if_neg (fun hc => absurd hc.2 (by omega)), if_pos ⟨h1, h2⟩]

/-- Concrete instantiation of the carry-forward part of
`highlightMatches_crossBoundary_spec`: the match `[1, 5)` against the
first segment `[0, 2)` of length `2` yields the local part `[1, 2)` and
stays queued for the next segment. -/
theorem highlightMatches_crossBoundary_spec_witness :
    collectNodeMatches [⟨1, 5⟩] 0 2 2 = ([⟨1, 2⟩], [⟨1, 5⟩]) :=
  highlightMatches_crossBoundary_spec.2 ⟨1, 5⟩ [] 0 2 2 (by decide) (by decide) (by decide)

/-- Counterexample to claim C8 as stated: splicing the match `[1, 2)` out
of the leaf `"ab"` (the match ends exactly at the leaf's end, so the
post-match remainder is empty) leaves an empty plain-text leaf in the tree
directly after the created marker — `splitText` inserted it, and skipping
the conditional `span.after(highlighted)` call does not remove it. -/
theorem spliceLeaf_empty_remainder_present :
    spliceLeaf ['a', 'b'] [⟨1, 2⟩] =
      [DomNode.text ['a'], DomNode.span ['b'], DomNode.text []] ∧
    (spliceLeaf ['a', 'b'] [⟨1, 2⟩]).get ⟨2, by decide⟩ = DomNode.text [] := by
  decide

/-- Claim C8 amended: for a match whose local end equals the leaf's full
length, the engine skips the conditional re-attachment of the post-match
remainder, but the `splitText` split has already inserted an empty text
leaf into the tree, and it remains immediately after the created marker
(it disappears only under a later normalization). -/
theorem spliceLeaf_boundary_empty_leaf (s : List Char) (a : Nat) :
    spliceLeaf s [⟨a, s.length⟩] =
      [DomNode.text (s.take a), DomNode.span (s.drop a), DomNode.text []] := by
  simp only [spliceLeaf, List.reverse_cons, List.reverse_nil, List.nil_append, applyMatchesRev]
  rw [show s.length - a = (s.drop a).length by rw [List.length_drop]]
  rw [List.take_length, List.drop_length]

/-! ### Selection exclusion (`isInSelection`), claims C5 and C9 -/

/-- Claim C5: for a mappable selection with logical endpoints
`(selStart, selEnd)`, `isInSelection` reports true exactly when the match
is fully contained in the selection or partially overlaps it under strict
inequalities; consequently a match fully inside the selection never
appears in the filtered match set handed to the splice engine. -/
theorem isInSelection_overlap_spec (m : MatchRange) (texts : List TextNodeEntry) (r : SelRange)
    (selStart selEnd : Nat)
    (h1 : findGlobalOffset texts r.startContainer r.startOffset = some selStart)
    (h2 : findGlobalOffset texts r.endContainer r.endOffset = some selEnd) :
    (isInSelection m texts (some r) = true ↔
      ((selStart ≤ m.start ∧ m.stop ≤ selEnd) ∨ (m.start < selEnd ∧ selStart < m.stop))) ∧
    (∀ ms : List MatchRange, selStart ≤ m.start → m.stop ≤ selEnd →
        m ∉ ms.filter (fun x => !(isInSelection x texts (some r)))) := by
  have hiff : isInSelection m texts (some r) = true ↔
      ((selStart ≤ m.start ∧ m.stop ≤ selEnd) ∨ (m.start < selEnd ∧ selStart < m.stop)) := by
    simp only [isInSelection, h1, h2, decide_eq_true_eq]
  refine ⟨hiff, ?_⟩
  intro ms hs he hmem
  have htrue : isInSelection m texts (some r) = true := hiff.mpr (Or.inl ⟨hs, he⟩)
  rcases List.mem_filter.mp hmem with ⟨_, hpred⟩
  rw [htrue] at hpred
  exact Bool.false_ne_true hpred

/-- Concrete instantiation of `isInSelection_overlap_spec`: one entry
`"ab"` at `[0, 2)`, selection covering it, match `[0, 2)` — reported
in-selection and filtered out. -/
theorem isInSelection_overlap_spec_witness :
    isInSelection ⟨0, 2⟩ [⟨0, ['a', 'b'], 0, 2⟩] (some ⟨0, 0, 0, 2⟩) = true ∧
    ⟨0, 2⟩ ∉ ([⟨0, 2⟩] : List MatchRange).filter
        (fun x => !(isInSelection x [⟨0, ['a', 'b'], 0, 2⟩] (some ⟨0, 0, 0, 2⟩))) :=
  ⟨((isInSelection_overlap_spec ⟨0, 2⟩ [⟨0, ['a', 'b'], 0, 2⟩] ⟨0, 0, 0, 2⟩ 0 2 rfl rfl).1).mpr
      (Or.inl ⟨by decide, by decide⟩),
    (isInSelection_overlap_spec ⟨0, 2⟩ [⟨0, ['a', 'b'], 0, 2⟩] ⟨0, 0, 0, 2⟩ 0 2 rfl rfl).2
      [⟨0, 2⟩] (by decide) (by decide)⟩

/-- Claim C9: when the selection's anchor or focus leaf is absent from the
current segment set, the selection is treated as empty — `isInSelection`
returns false for every match and selection-based filtering drops
nothing. -/
theorem isInSelection_unmappable_spec (texts : List TextNodeEntry) (r : SelRange)
    (h : (∀ e ∈ texts, e.idx ≠ r.startContainer) ∨ (∀ e ∈ texts, e.idx ≠ r.endContainer)) :
    (∀ m, isInSelection m texts (some r) = false) ∧
    (∀ ms : List MatchRange, ms.filter (fun x => !(isInSelection x texts (some r))) = ms) := by
  have hfalse : ∀ m, isInSelection m texts (some r) = false := by
    intro m
    rcases h with h | h
    · have hn : texts.find? (fun t => t.idx == r.startContainer) = none :=
        List.find?_eq_none.mpr (fun e he => by simpa using h e he)
      simp [isInSelection, findGlobalOffset, hn]
    · have hn : texts.find? (fun t => t.idx == r.endContainer) = none :=
        List.find?_eq_none.mpr (fun e he => by simpa using h e he)
      cases hfg : findGlobalOffset texts r.startContainer r.startOffset with
      | none => simp [isInSelection, hfg]
      | some v => simp [isInSelection, hfg, findGlobalOffset, hn]
  refine ⟨hfalse, ?_⟩
  intro ms
  apply List.filter_eq_self.mpr
  intro a _
  rw [hfalse a]
  rfl

/-- Concrete instantiation of `isInSelection_unmappable_spec`: the
selection's anchor container `5` is absent from the segment set. -/
theorem isInSelection_unmappable_spec_witness :
    isInSelection ⟨0, 1⟩ [⟨0, ['a'], 0, 1⟩] (some ⟨5, 0, 0, 1⟩) = false ∧
    ([⟨0, 1⟩] : List MatchRange).filter
        (fun x => !(isInSelection x [⟨0, ['a'], 0, 1⟩] (some ⟨5, 0, 0, 1⟩))) = [⟨0, 1⟩] :=
  ⟨(isInSelection_unmappable_spec [⟨0, ['a'], 0, 1⟩] ⟨5, 0, 0, 1⟩ (Or.inl (by decide))).1 ⟨0, 1⟩,
    (isInSelection_unmappable_spec [⟨0, ['a'], 0, 1⟩] ⟨5, 0, 0, 1⟩ (Or.inl (by decide))).2
      [⟨0, 1⟩]⟩

/-! ### The controller (`highlightNode`), claims C1, C10, and C6's counterexample -/

theorem removeHighlightNode_idem (n : DomNode) :
    removeHighlightNode (removeHighlightNode n) = removeHighlightNode n := by
  cases n <;> rfl

theorem countSpans_map_removeHighlightNode (t : List DomNode) :
    countSpans (t.map removeHighlightNode) = 0 := by
  induction t with
  | nil => rfl
  | cons n ns ih =>
    cases n <;> simpa [countSpans, removeHighlightNode, isSpanNode, List.filter_cons] using ih

theorem map_removeHighlightNode_of_noSpans (t : List DomNode) (h : countSpans t = 0) :
    t.map removeHighlightNode = t := by
  induction t with
  | nil => rfl
  | cons n ns ih =>
    cases n with
    | text s =>
      have hns : countSpans ns = 0 := by
        simpa [countSpans, isSpanNode, List.filter_cons] using h
      rw [List.map_cons, ih hns]
      rfl
    | span s =>
      exfalso
      simp [countSpans, isSpanNode, List.filter_cons] at h

theorem map_removeHighlightNode_map (t : List DomNode) :
    (t.map removeHighlightNode).map removeHighlightNode = t.map removeHighlightNode := by
  induction t with
  | nil => rfl
  | cons n ns ih =>
    rw [List.map_cons, List.map_cons, removeHighlightNode_idem, ih]

/-- When the guard `text !== "" && text !== lastSelectedText` fails, the
call reduces to the unconditional clear with the tracked text kept. -/
theorem highlightNode_guard_else (st : HLState) (sel : Option SelRange) (selText : List Char)
    (h : ¬(selText ≠ [] ∧ selText ≠ st.lastSelectedText)) :
    highlightNode st selText sel =
      { lastSelectedText := st.lastSelectedText, tree := st.tree.map removeHighlightNode } := by
  simp only [highlightNode, if_neg h]

/-- Counterexample to claim C1 as stated: with a marker present and the
new selection text equal to the tracked text, the call is not a no-op —
the unconditional clear removes the marker, so the set of markers present
changes. -/
theorem highlightNode_sameText_clears_markers :
    countSpans (HLState.mk ['a', 'b'] [DomNode.span ['a', 'b']]).tree = 1 ∧
    countSpans
        ((highlightNode (HLState.mk ['a', 'b'] [DomNode.span ['a', 'b']]) ['a', 'b'] none).tree)
      = 0 := by
  decide

/-- Claim C1 amended: when the new selection text equals the currently
tracked text, the collect/match/splice pipeline is skipped — the tracked
text and the tree's textual content are unchanged and no markers remain
afterwards — but the unconditional `removeHighlights()` clear still runs
first, so existing markers are removed; the call is a true no-op only when
the tree holds no markers. -/
theorem highlightNode_sameText_skips_pipeline (st : HLState) (sel : Option SelRange)
    (selText : List Char) (h : selText = st.lastSelectedText) :
    (highlightNode st selText sel).lastSelectedText = st.lastSelectedText ∧
    (highlightNode st selText sel).tree = st.tree.map removeHighlightNode ∧
    treeText (highlightNode st selText sel).tree = treeText st.tree ∧
    countSpans (highlightNode st selText sel).tree = 0 ∧
    (countSpans st.tree = 0 → highlightNode st selText sel = st) := by
  have hg := highlightNode_guard_else st sel selText (fun hc => hc.2 h)
  rw [hg]
  refine ⟨rfl, rfl, treeText_map_removeHighlightNode st.tree,
    countSpans_map_removeHighlightNode st.tree, ?_⟩
  intro h0
  rw [map_removeHighlightNode_of_noSpans st.tree h0]

/-- Concrete instantiation of `highlightNode_sameText_skips_pipeline` on a
marker-free state: the call is the identity. -/
theorem highlightNode_sameText_skips_pipeline_witness :
    highlightNode (HLState.mk ['a'] [DomNode.text ['a']]) ['a'] none =
      HLState.mk ['a'] [DomNode.text ['a']] :=
  (highlightNode_sameText_skips_pipeline (HLState.mk ['a'] [DomNode.text ['a']]) none ['a']
    rfl).2.2.2.2 (by decide)

/-- Claim C10: a call with empty selection text still removes the existing
markers (the unconditional clear runs first) while the tracked text keeps
its previous value; an immediately following call whose selection equals
that previous tracked text is guarded out and creates no new markers,
leaving that text unhighlighted. -/
theorem highlightNode_emptySelection_keeps_tracked (st : HLState) (sel1 sel2 : Option SelRange)
    (h : st.lastSelectedText ≠ []) :
    (highlightNode st [] sel1).lastSelectedText = st.lastSelectedText ∧
    (highlightNode st [] sel1).tree = st.tree.map removeHighlightNode ∧
    countSpans ((highlightNode (highlightNode st [] sel1) st.lastSelectedText sel2).tree) = 0 ∧
    (highlightNode (highlightNode st [] sel1) st.lastSelectedText sel2).tree =
      st.tree.map removeHighlightNode := by
  have h1 := highlightNode_guard_else st sel1 [] (fun hc => hc.1 rfl)
  have h2 := highlightNode_guard_else (highlightNode st [] sel1) sel2 st.lastSelectedText
    (by rw [h1]; exact fun hc => hc.2 rfl)
  rw [h2, h1]
  exact ⟨rfl, rfl, countSpans_map_removeHighlightNode _, map_removeHighlightNode_map _⟩

/-- Concrete instantiation of `highlightNode_emptySelection_keeps_tracked`
on a state holding one marker for the tracked text `"a"`. -/
theorem highlightNode_emptySelection_keeps_tracked_witness :
    (highlightNode (HLState.mk ['a'] [DomNode.span ['a']]) [] none).lastSelectedText = ['a'] ∧
    countSpans
        ((highlightNode (highlightNode (HLState.mk ['a'] [DomNode.span ['a']]) [] none)
          ['a'] none).tree) = 0 :=
  ⟨(highlightNode_emptySelection_keeps_tracked (HLState.mk ['a'] [DomNode.span ['a']]) none none
      (by decide)).1,
    (highlightNode_emptySelection_keeps_tracked (HLState.mk ['a'] [DomNode.span ['a']]) none none
      (by decide)).2.2.1⟩

/-! ### The single-character guard, claim C6 -/

/-- Counterexample to claim C6 as stated: the V3 controller
`highlightNode` applies no single-character guard — triggered with the
single alphanumeric selection `"a"` over the content `"xax"` (tracked text
empty), it runs the full pipeline and creates a marker. -/
theorem highlightNode_singleChar_creates_marker :
    countSpans
        ((highlightNode (HLState.mk [] [DomNode.text ['x', 'a', 'x']]) ['a'] none).tree) = 1 := by
  decide

/-- Claim C6 amended: the guard against single alphanumeric-character
selections lives in the event handler `HighlightFeature.switchHighlight`,
which rejects such a trigger outright — the state, tree and markers are
untouched and no pipeline runs; the V3 controller `highlightNode` itself
applies no such guard. -/
theorem switchHighlight_singleAlnum_guard (st : FeatState) (c : Char)
    (h : isAlphanumChar c = true) :
    switchHighlight st [c] = st := by
  simp only [switchHighlight]
  rw [if_pos (by simp [h])]

/-- Concrete instantiation of `switchHighlight_singleAlnum_guard` at the
selection `"a"`. -/
theorem switchHighlight_singleAlnum_guard_witness :
    switchHighlight (FeatState.mk [] [DomNode.text ['x']]) ['a'] =
      FeatState.mk [] [DomNode.text ['x']] :=
  switchHighlight_singleAlnum_guard (FeatState.mk [] [DomNode.text ['x']]) 'a' (by decide)

end Bread
